import Mathlib

/-!
# Verification of the bracketing interpolation search of `getLedger`

A shallow embedding of `src/ledger.cpp`.  The program seeds a bracket from the
last validated ledger (`l2 = L`, `l1 = L - 10`), then repeatedly fetches the
close time of a probe index `nl`, short-circuits on an exact hit, computes an
inverse-linear-interpolation guess, and classifies the guess against the
current bracket (`main`, src/ledger.cpp:156-242).

The lookup table is modelled as a total function `f : ℤ → ℤ` (the close time of
each ledger index); the C++ `double` arithmetic of the guess is modelled by
exact rational arithmetic with `std::round`'s half-away-from-zero rounding; the
loop is run on fuel, since (as proved below) it does not terminate on every
strictly increasing table.
-/

namespace GetLedger

/-- Which timestamp slot the pointer `pnt` of `main` aliases (`&t1` or `&t2`). -/
inductive Side
  | low
  | high
  deriving DecidableEq

/-- The loop state of `main` just before `*pnt = get_close_time(nl)`
(src/ledger.cpp:178): the bracket `l1 ≤ l2` with timestamp slots `t1, t2`, the
probe index `nl`, and the slot `side` that the fetched timestamp is written to. -/
structure St where
  l1 : ℤ
  t1 : ℤ
  l2 : ℤ
  t2 : ℤ
  nl : ℤ
  side : Side
  deriving DecidableEq

/-- Which of the exits of `main` produced the result: the early return on an
exact seed hit (src/ledger.cpp:169-170), the exact-hit break (181-186), the
lower-adjacent break (208-209), or the upper-adjacent break (216-221). -/
inductive Tag
  | seedExact
  | exact
  | low
  | high
  deriving DecidableEq

/-- The final values of `l1, t1, l2, t2` when `main` stops searching, together
with the exit taken.  The record the program prints is `(l1, t1)`
(src/ledger.cpp:240-241). -/
structure Res where
  l1 : ℤ
  t1 : ℤ
  l2 : ℤ
  t2 : ℤ
  tag : Tag
  deriving DecidableEq

/-- `static_cast<int>(std::round q)`: round half away from zero. -/
def rnd (q : ℚ) : ℤ := if 0 ≤ q then ⌊q + 1 / 2⌋ else -⌊-q + 1 / 2⌋

/-- `*pnt = v`: write the fetched timestamp into the slot `pnt` aliases. -/
def fetchInto : St → ℤ → St
  | ⟨l1, _, l2, t2, nl, Side.low⟩, v => ⟨l1, v, l2, t2, nl, Side.low⟩
  | ⟨l1, t1, l2, _, nl, Side.high⟩, v => ⟨l1, t1, l2, v, nl, Side.high⟩

/-- `auto m = double(l2-l1)/(t2-t1)` (src/ledger.cpp:188). -/
def slope (σ : St) : ℚ := ((σ.l2 - σ.l1 : ℤ) : ℚ) / ((σ.t2 - σ.t1 : ℤ) : ℚ)

/-- `auto b = l1 - m*t1` (src/ledger.cpp:189). -/
def intercept (σ : St) : ℚ := (σ.l1 : ℚ) - slope σ * (σ.t1 : ℚ)

/-- `nl = static_cast<int>(std::round(m*(target/1s) + b))` (src/ledger.cpp:190). -/
def guess (target : ℤ) (σ : St) : ℤ := rnd (slope σ * (target : ℚ) + intercept σ)

/-- One iteration of the `while (true)` loop of `main` (src/ledger.cpp:176-239):
fetch `nl`'s close time into the slot `pnt` aliases, break on an exact hit,
otherwise classify the interpolation guess against the bracket.  `Sum.inl` is a
`break` (with the final values of `l1, t1, l2, t2`), `Sum.inr` the next state. -/
def step (f : ℤ → ℤ) (target : ℤ) (σ₀ : St) : Res ⊕ St :=
  let v := f σ₀.nl
  let σ := fetchInto σ₀ v
  if v = target then
    Sum.inl ⟨σ₀.nl, v, σ.l2, σ.t2, Tag.exact⟩
  else
    let nl := guess target σ
    if nl < σ.l1 then
      Sum.inr ⟨nl, σ.t1, σ.l1, σ.t1, nl, Side.low⟩
    else if σ.l2 < nl then
      Sum.inr ⟨σ.l2, σ.t2, nl, σ.t2, nl, Side.high⟩
    else if nl = σ.l1 then
      if σ.l2 - σ.l1 = 1 then
        Sum.inl ⟨σ.l1, σ.t1, σ.l2, σ.t2, Tag.low⟩
      else
        Sum.inr ⟨σ.l1, σ.t1, σ.l1 + 1, σ.t2, σ.l1 + 1, Side.high⟩
    else if nl = σ.l2 then
      if σ.l1 = σ.l2 - 1 then
        Sum.inl ⟨σ.l2, σ.t2, σ.l2, σ.t2, Tag.high⟩
      else
        Sum.inr ⟨σ.l2 - 1, σ.t1, σ.l2, σ.t2, σ.l2 - 1, Side.low⟩
    else
      if nl - σ.l1 ≤ σ.l2 - nl then
        Sum.inr ⟨σ.l1, σ.t1, nl, σ.t2, nl, Side.high⟩
      else
        Sum.inr ⟨nl, σ.t1, σ.l2, σ.t2, nl, Side.low⟩

/-- Run the loop for at most `fuel` iterations; `c` counts the
`get_close_time` lookups made so far (each iteration makes exactly one). -/
def loop (f : ℤ → ℤ) (target : ℤ) : ℕ → St → ℕ → Option (Res × ℕ)
  | 0, _, _ => none
  | fuel + 1, σ, c =>
    match step f target σ with
    | Sum.inl r => some (r, c + 1)
    | Sum.inr σ' => loop f target fuel σ' (c + 1)

/-- Iterate `step` exactly `n` times; `none` if some iteration breaks first. -/
def stepsTo (f : ℤ → ℤ) (target : ℤ) : ℕ → St → Option St
  | 0, σ => some σ
  | n + 1, σ =>
    match step f target σ with
    | Sum.inl _ => none
    | Sum.inr σ' => stepsTo f target n σ'

/-- The state entering the loop (src/ledger.cpp:171-174): `l1 = l2 - 10`,
`nl = l1`, `pnt = &t1`; `t1` is uninitialized in the source (modelled as `0`,
it is written by the first fetch before it is read). -/
def init (f : ℤ → ℤ) (L : ℤ) : St := ⟨L - 10, 0, L, f L, L - 10, Side.low⟩

/-- The whole search of `main` (src/ledger.cpp:156-242): seed `(l2, t2)` with
the last validated ledger (one lookup), return at once on an exact seed hit,
else run the loop.  Returns the final record and the total number of lookups. -/
def search (f : ℤ → ℤ) (target : ℤ) (L : ℤ) (fuel : ℕ) : Option (Res × ℕ) :=
  if f L = target then some (⟨L, f L, L, f L, Tag.seedExact⟩, 1)
  else loop f target fuel (init f L) 1

/-- `get_close_time` (src/ledger.cpp:147-154): the close time of `ledger_seq`,
or `0` if the lookup fails. -/
def get_close_time (lookup : ℤ → Option ℤ) (ledger_seq : ℤ) : ℤ :=
  match lookup ledger_seq with
  | some t => t
  | none => 0

/-- `get_last_validated_close_time` (src/ledger.cpp:138-145): the pair
`(ledger_index, close_time)` of the last validated ledger, or `(0, 0)` if the
lookup fails. -/
def get_last_validated_close_time (reply : Option (ℤ × ℤ)) : ℤ × ℤ :=
  match reply with
  | some p => p
  | none => (0, 0)

/-- Modelled from the spec: §4 "Initial bracket normalization" describes a
swap of out-of-order seed pairs that is absent from src/ledger.cpp (whose
seeding fixes `l1 = l2 - 10 < l2`); it belongs to the near-duplicate variant
of the program that is not among the sources.  Swap both the bound pair and
the timestamp pair when the first seed's index exceeds the second's. -/
def normalizeSeeds (p q : ℤ × ℤ) : (ℤ × ℤ) × (ℤ × ℤ) :=
  if q.1 < p.1 then (q, p) else (p, q)

/-- Modelled from the spec: a search seeded with two explicit
(index, timestamp) pairs (two lookups already performed), normalized before
the first classification, then run through the loop of `main`. -/
def searchFromSeeds (f : ℤ → ℤ) (target : ℤ) (fuel : ℕ) (p q : ℤ × ℤ) :
    Option (Res × ℕ) :=
  let s := normalizeSeeds p q
  loop f target fuel ⟨s.1.1, s.1.2, s.2.1, s.2.2, s.1.1, Side.low⟩ 2

/-- A strictly increasing close-time table on which the search cycles forever:
seeded at ledger 100 with target 422, the loop revisits the state `cycSt`
every five iterations. -/
def fcyc (x : ℤ) : ℤ :=
  x + (if x < 91 then 278 else if x < 96 then 293 else if x < 98 then 296
       else if x < 100 then 345 else if x < 101 then 349 else 402)

/-- The loop state that recurs forever when searching `fcyc` for 422. -/
def cycSt : St := ⟨99, 393, 100, 449, 99, Side.low⟩

/-- A strictly increasing close-time table with a large gap below index 91:
searching it for 995 terminates with the adjacent pair (90, 91) although
995 < fcex 90 — the reported bracket does not contain the target. -/
def fcex (x : ℤ) : ℤ := x + (if x < 91 then 910 else 1899)

/-- The record reported when searching `fcex` for 995 from seed 100. -/
def cexRes : Res := ⟨90, 1000, 91, 1990, Tag.low⟩

/-- A strictly increasing table of slope 100: the very first guess
extrapolates far below the seed bracket and the bracket width grows. -/
def fwide (x : ℤ) : ℤ := 100 * x

/-- A pre-fetch state with bracket (0, 10) and probe 0, used to exercise the
interior-guess branch on the identity table. -/
def stIn : St := ⟨0, 0, 10, 10, 0, Side.low⟩

/-- The successor of `stIn` under target 5: the guess 5 is interior and the
upper bound is replaced. -/
def stOut : St := ⟨0, 0, 5, 10, 5, Side.high⟩

/-- The successor of `stIn` under target 2: the guess 2 is strictly closer to
the lower bound, yet the upper bound is the one overwritten. -/
def st8Out : St := ⟨0, 0, 2, 10, 2, Side.high⟩

/-- The loop invariant stated in the source comment
`// invariant: l1 < l2, t1 < t2` (src/ledger.cpp:180), formulated on the
pre-fetch state: the bracket is strictly ordered, the probe `nl` is the bound
whose slot is about to be written, and the other bound's slot already holds
that bound's close time. -/
def Inv (f : ℤ → ℤ) (σ : St) : Prop :=
  σ.l1 < σ.l2 ∧
  (σ.side = Side.low → σ.nl = σ.l1 ∧ σ.t2 = f σ.l2) ∧
  (σ.side = Side.high → σ.nl = σ.l2 ∧ σ.t1 = f σ.l1)

lemma fetchInto_l1 (σ : St) (v : ℤ) : (fetchInto σ v).l1 = σ.l1 := by
  rcases σ with ⟨l1, t1, l2, t2, nl, s⟩
  cases s <;> rfl

lemma fetchInto_l2 (σ : St) (v : ℤ) : (fetchInto σ v).l2 = σ.l2 := by
  rcases σ with ⟨l1, t1, l2, t2, nl, s⟩
  cases s <;> rfl

lemma fetch_t1 (f : ℤ → ℤ) {σ : St} (hI : Inv f σ) :
    (fetchInto σ (f σ.nl)).t1 = f σ.l1 := by
  obtain ⟨-, hlo, hhi⟩ := hI
  rcases σ with ⟨l1, t1, l2, t2, nl, s⟩
  cases s
  · exact congrArg f (hlo rfl).1
  · exact (hhi rfl).2

lemma fetch_t2 (f : ℤ → ℤ) {σ : St} (hI : Inv f σ) :
    (fetchInto σ (f σ.nl)).t2 = f σ.l2 := by
  obtain ⟨-, hlo, hhi⟩ := hI
  rcases σ with ⟨l1, t1, l2, t2, nl, s⟩
  cases s
  · exact (hlo rfl).2
  · exact congrArg f (hhi rfl).1

lemma inv_init (f : ℤ → ℤ) (L : ℤ) : Inv f (init f L) := by
  refine ⟨?_, fun _ => ⟨rfl, rfl⟩, fun h => ?_⟩
  · show L - 10 < L
    omega
  · exact absurd h (by simp [init])

/-- Every `Sum.inr` branch of `step` preserves the invariant. -/
lemma inv_step (f : ℤ → ℤ) (target : ℤ) {σ σ' : St} (hI : Inv f σ)
    (h : step f target σ = Sum.inr σ') : Inv f σ' := by
  have hL1 := fetchInto_l1 σ (f σ.nl)
  have hL2 := fetchInto_l2 σ (f σ.nl)
  have hT1 := fetch_t1 f hI
  have hT2 := fetch_t2 f hI
  have hlt : σ.l1 < σ.l2 := hI.1
  simp only [step] at h
  split_ifs at h with hv h1 h2 h3 h4 h5 h6 h7 <;>
    (rw [Sum.inr.injEq] at h; subst h;
     refine ⟨?_, fun hs => ?_, fun hs => ?_⟩ <;>
       simp_all <;> omega)

/-- Characterization of the three `break` exits of the loop. -/
lemma step_inl (f : ℤ → ℤ) (target : ℤ) {σ : St} {r : Res} (hI : Inv f σ)
    (h : step f target σ = Sum.inl r) :
    (r.tag = Tag.exact ∧ r.t1 = target ∧ r.t1 = f r.l1) ∨
    (r.tag = Tag.low ∧ r.l2 = r.l1 + 1 ∧ r.t1 = f r.l1 ∧ r.t2 = f r.l2) ∨
    (r.tag = Tag.high ∧ r.l1 = r.l2 ∧ r.t1 = r.t2 ∧ r.t1 = f r.l1) := by
  have hL1 := fetchInto_l1 σ (f σ.nl)
  have hL2 := fetchInto_l2 σ (f σ.nl)
  have hT1 := fetch_t1 f hI
  have hT2 := fetch_t2 f hI
  simp only [step] at h
  split_ifs at h with hv h1 h2 h3 h4 h5 h6 h7 <;>
    first
      | (rw [Sum.inl.injEq] at h; subst h; simp_all; omega)
      | (rw [Sum.inl.injEq] at h; subst h; simp_all)

/-- If the loop returns, its result was produced by a `break` out of a
reachable, invariant-satisfying state. -/
lemma loop_inl (f : ℤ → ℤ) (target : ℤ) :
    ∀ (fuel : ℕ) (σ : St) (c n : ℕ) (r : Res), Inv f σ →
      loop f target fuel σ c = some (r, n) →
      ∃ σ', Inv f σ' ∧ step f target σ' = Sum.inl r
  | 0, σ, c, n, r, _, h => by simp [loop] at h
  | fuel + 1, σ, c, n, r, hI, h => by
    rw [loop] at h
    cases hs : step f target σ with
    | inl r' =>
      rw [hs] at h
      simp only [Option.some.injEq, Prod.mk.injEq] at h
      exact ⟨σ, hI, by rw [hs, h.1]⟩
    | inr σ' =>
      rw [hs] at h
      exact loop_inl f target fuel σ' (c + 1) n r (inv_step f target hI hs) h

/-- `stepsTo` preserves the invariant. -/
lemma stepsTo_inv (f : ℤ → ℤ) (target : ℤ) :
    ∀ (n : ℕ) (σ σ' : St), Inv f σ → stepsTo f target n σ = some σ' → Inv f σ'
  | 0, σ, σ', hI, h => by
    simp only [stepsTo, Option.some.injEq] at h
    exact h ▸ hI
  | n + 1, σ, σ', hI, h => by
    rw [stepsTo] at h
    cases hs : step f target σ with
    | inl r => rw [hs] at h; exact absurd h (by simp)
    | inr σ₁ =>
      rw [hs] at h
      exact stepsTo_inv f target n σ₁ σ' (inv_step f target hI hs) h

/-- Running `n` iterations without a break, then `fuel` more, is running
`n + fuel` iterations. -/
lemma loop_add (f : ℤ → ℤ) (target : ℤ) :
    ∀ (n fuel : ℕ) (σ σ' : St) (c : ℕ), stepsTo f target n σ = some σ' →
      loop f target (n + fuel) σ c = loop f target fuel σ' (c + n)
  | 0, fuel, σ, σ', c, h => by
    simp only [stepsTo, Option.some.injEq] at h
    subst h; simp
  | n + 1, fuel, σ, σ', c, h => by
    rw [stepsTo] at h
    cases hs : step f target σ with
    | inl r => rw [hs] at h; exact absurd h (by simp)
    | inr σ₁ =>
      rw [hs] at h
      have h2 : n + 1 + fuel = (n + fuel) + 1 := by omega
      rw [h2]
      show (match step f target σ with
        | Sum.inl r => some (r, c + 1)
        | Sum.inr σ₂ => loop f target (n + fuel) σ₂ (c + 1)) = _
      rw [hs]
      show loop f target (n + fuel) σ₁ (c + 1) = _
      rw [loop_add f target n fuel σ₁ σ' (c + 1) h]
      congr 1
      omega

/-- If `n` iterations run without a break, any fuel `≤ n` is exhausted
without an answer. -/
lemma loop_none_of_le (f : ℤ → ℤ) (target : ℤ) :
    ∀ (fuel n : ℕ) (σ σ' : St) (c : ℕ), stepsTo f target n σ = some σ' →
      fuel ≤ n → loop f target fuel σ c = none
  | 0, _, _, _, _, _, _ => by simp [loop]
  | fuel + 1, n, σ, σ', c, h, hle => by
    obtain ⟨m, rfl⟩ : ∃ m, n = m + 1 := ⟨n - 1, by omega⟩
    rw [stepsTo] at h
    cases hs : step f target σ with
    | inl r => rw [hs] at h; exact absurd h (by simp)
    | inr σ₁ =>
      rw [hs] at h
      rw [loop, hs]
      exact loop_none_of_le f target fuel m σ₁ σ' (c + 1) h (by omega)

lemma stepsTo_succ {f : ℤ → ℤ} {target : ℤ} {σ σ₁ : St} (n : ℕ)
    (hs : step f target σ = Sum.inr σ₁) :
    stepsTo f target (n + 1) σ = stepsTo f target n σ₁ := by
  show (match step f target σ with
    | Sum.inl _ => none
    | Sum.inr σ' => stepsTo f target n σ') = _
  rw [hs]

lemma loop_succ_inr {f : ℤ → ℤ} {target : ℤ} {σ σ₁ : St} (fuel c : ℕ)
    (hs : step f target σ = Sum.inr σ₁) :
    loop f target (fuel + 1) σ c = loop f target fuel σ₁ (c + 1) := by
  show (match step f target σ with
    | Sum.inl r => some (r, c + 1)
    | Sum.inr σ' => loop f target fuel σ' (c + 1)) = _
  rw [hs]

lemma loop_succ_inl {f : ℤ → ℤ} {target : ℤ} {σ : St} {r : Res} (fuel c : ℕ)
    (hs : step f target σ = Sum.inl r) :
    loop f target (fuel + 1) σ c = some (r, c + 1) := by
  show (match step f target σ with
    | Sum.inl r => some (r, c + 1)
    | Sum.inr σ' => loop f target fuel σ' (c + 1)) = _
  rw [hs]

lemma fcyc_mono : StrictMono fcyc := by
  intro a b hab
  simp only [fcyc]
  split_ifs <;> omega

lemma fcex_mono : StrictMono fcex := by
  intro a b hab
  simp only [fcex]
  split_ifs <;> omega

lemma fwide_mono : StrictMono fwide := by
  intro a b hab
  simp only [fwide]
  omega

lemma cyc_step0 : step fcyc 422 (init fcyc 100) =
    Sum.inr ⟨97, 368, 100, 449, 97, Side.low⟩ := by
  norm_num [step, init, fcyc, fetchInto, guess, slope, intercept, rnd]

lemma cyc_step1 : step fcyc 422 ⟨97, 368, 100, 449, 97, Side.low⟩ = Sum.inr cycSt := by
  norm_num [step, cycSt, fcyc, fetchInto, guess, slope, intercept, rnd]

lemma cyc_step2 : step fcyc 422 cycSt = Sum.inr ⟨95, 444, 99, 444, 95, Side.low⟩ := by
  norm_num [step, cycSt, fcyc, fetchInto, guess, slope, intercept, rnd]

lemma cyc_step3 : step fcyc 422 ⟨95, 444, 99, 444, 95, Side.low⟩ =
    Sum.inr ⟨95, 388, 97, 444, 97, Side.high⟩ := by
  norm_num [step, fcyc, fetchInto, guess, slope, intercept, rnd]

lemma cyc_step4 : step fcyc 422 ⟨95, 388, 97, 444, 97, Side.high⟩ =
    Sum.inr ⟨97, 393, 109, 393, 109, Side.high⟩ := by
  norm_num [step, fcyc, fetchInto, guess, slope, intercept, rnd]

lemma cyc_step5 : step fcyc 422 ⟨97, 393, 109, 393, 109, Side.high⟩ =
    Sum.inr ⟨97, 393, 100, 511, 100, Side.high⟩ := by
  norm_num [step, fcyc, fetchInto, guess, slope, intercept, rnd]

lemma cyc_step6 : step fcyc 422 ⟨97, 393, 100, 511, 100, Side.high⟩ = Sum.inr cycSt := by
  norm_num [step, cycSt, fcyc, fetchInto, guess, slope, intercept, rnd]

lemma stepsTo_prefix : stepsTo fcyc 422 2 (init fcyc 100) = some cycSt := by
  rw [show (2 : ℕ) = 1 + 1 from rfl, stepsTo_succ 1 cyc_step0,
      show (1 : ℕ) = 0 + 1 from rfl, stepsTo_succ 0 cyc_step1]
  rfl

lemma stepsTo_cycle : stepsTo fcyc 422 5 cycSt = some cycSt := by
  rw [show (5 : ℕ) = 4 + 1 from rfl, stepsTo_succ 4 cyc_step2,
      show (4 : ℕ) = 3 + 1 from rfl, stepsTo_succ 3 cyc_step3,
      show (3 : ℕ) = 2 + 1 from rfl, stepsTo_succ 2 cyc_step4,
      show (2 : ℕ) = 1 + 1 from rfl, stepsTo_succ 1 cyc_step5,
      show (1 : ℕ) = 0 + 1 from rfl, stepsTo_succ 0 cyc_step6]
  rfl

lemma loop_cyc_none : ∀ (k fuel c : ℕ), fuel ≤ 5 * k →
    loop fcyc 422 fuel cycSt c = none
  | 0, fuel, c, h => by
    obtain rfl : fuel = 0 := by omega
    rfl
  | k + 1, fuel, c, h => by
    by_cases h5 : fuel ≤ 5
    · exact loop_none_of_le fcyc 422 fuel 5 cycSt cycSt c stepsTo_cycle h5
    · have hf : fuel = 5 + (fuel - 5) := by omega
      rw [hf, loop_add fcyc 422 5 (fuel - 5) cycSt cycSt c stepsTo_cycle]
      exact loop_cyc_none k (fuel - 5) (c + 5) (by omega)

lemma cex_step0 : step fcex 995 (init fcex 100) =
    Sum.inr ⟨90, 1000, 91, 1999, 91, Side.high⟩ := by
  norm_num [step, init, fcex, fetchInto, guess, slope, intercept, rnd]

lemma cex_step1 : step fcex 995 ⟨90, 1000, 91, 1999, 91, Side.high⟩ =
    Sum.inl cexRes := by
  norm_num [step, cexRes, fcex, fetchInto, guess, slope, intercept, rnd]

lemma cex_search_eval : search fcex 995 100 10 = some (cexRes, 3) := by
  have hne : fcex 100 ≠ 995 := by decide
  rw [search, if_neg hne, show (10 : ℕ) = 9 + 1 from rfl, loop_succ_inr 9 1 cex_step0,
      show (9 : ℕ) = 8 + 1 from rfl, loop_succ_inl 8 2 cex_step1]

lemma wide_step : step fwide 50 (init fwide 100) =
    Sum.inr ⟨1, 9000, 90, 9000, 1, Side.low⟩ := by
  norm_num [step, init, fwide, fetchInto, guess, slope, intercept, rnd]

lemma id_interior_step : step (fun x : ℤ => x) 5 stIn = Sum.inr stOut := by
  norm_num [step, stIn, stOut, fetchInto, guess, slope, intercept, rnd]

lemma id_interior_guess : guess 5 (fetchInto stIn ((fun x : ℤ => x) stIn.nl)) = 5 := by
  norm_num [stIn, fetchInto, guess, slope, intercept, rnd]

lemma id8_interior_step : step (fun x : ℤ => x) 2 stIn = Sum.inr st8Out := by
  norm_num [step, stIn, st8Out, fetchInto, guess, slope, intercept, rnd]

lemma id8_interior_guess : guess 2 (fetchInto stIn ((fun x : ℤ => x) stIn.nl)) = 2 := by
  norm_num [stIn, fetchInto, guess, slope, intercept, rnd]

lemma id_search_eval : search (fun x : ℤ => x) 5 5 1 =
    some (⟨5, 5, 5, 5, Tag.seedExact⟩, 1) := by
  rw [search, if_pos rfl]

lemma guess_eq_formula (target : ℤ) (σ : St) :
    guess target σ = rnd (((σ.l2 : ℚ) - (σ.l1 : ℚ)) / ((σ.t2 : ℚ) - (σ.t1 : ℚ)) * (target : ℚ) +
      ((σ.l1 : ℚ) - ((σ.l2 : ℚ) - (σ.l1 : ℚ)) / ((σ.t2 : ℚ) - (σ.t1 : ℚ)) * (σ.t1 : ℚ))) := by
  simp only [guess, slope, intercept]
  congr 1
  push_cast
  ring

/-- Claim C1 (amended): whenever the search returns, the result is either an
exact hit (the seed or a fetched index whose close time equals the target) or
an adjacent pair: the lower-adjacent exit reports `l1` with `l2 = l1 + 1`, the
upper-adjacent exit reports the upper index (final `l1 = l2`); in every case
the reported timestamp is the table's value at the reported index.  The
adjacent pair need NOT satisfy `lookup i < target < lookup (i+1)` (see the
counterexample). -/
theorem search_result_exact_or_adjacent (f : ℤ → ℤ) (target L : ℤ) (fuel : ℕ)
    (r : Res) (n : ℕ) (h : search f target L fuel = some (r, n)) :
    (r.tag = Tag.seedExact ∧ r.l1 = L ∧ r.t1 = target ∧ r.t1 = f r.l1) ∨
    (r.tag = Tag.exact ∧ r.t1 = target ∧ r.t1 = f r.l1) ∨
    (r.tag = Tag.low ∧ r.l2 = r.l1 + 1 ∧ r.t1 = f r.l1 ∧ r.t2 = f r.l2) ∨
    (r.tag = Tag.high ∧ r.l1 = r.l2 ∧ r.t1 = r.t2 ∧ r.t1 = f r.l1) := by
  rw [search] at h
  split_ifs at h with hseed
  · simp only [Option.some.injEq, Prod.mk.injEq] at h
    obtain ⟨h1, -⟩ := h
    subst h1
    exact Or.inl ⟨rfl, rfl, hseed, rfl⟩
  · obtain ⟨σ', hI, hstep⟩ := loop_inl f target fuel (init f L) 1 n r (inv_init f L) h
    rcases step_inl f target hI hstep with hc | hc | hc
    · exact Or.inr (Or.inl hc)
    · exact Or.inr (Or.inr (Or.inl hc))
    · exact Or.inr (Or.inr (Or.inr hc))

/-- Claim C1 witness: the amended theorem applied to the terminating search on
the table `fcex`. -/
theorem search_result_exact_or_adjacent_witness :
    (cexRes.tag = Tag.seedExact ∧ cexRes.l1 = 100 ∧ cexRes.t1 = 995 ∧
      cexRes.t1 = fcex cexRes.l1) ∨
    (cexRes.tag = Tag.exact ∧ cexRes.t1 = 995 ∧ cexRes.t1 = fcex cexRes.l1) ∨
    (cexRes.tag = Tag.low ∧ cexRes.l2 = cexRes.l1 + 1 ∧ cexRes.t1 = fcex cexRes.l1 ∧
      cexRes.t2 = fcex cexRes.l2) ∨
    (cexRes.tag = Tag.high ∧ cexRes.l1 = cexRes.l2 ∧ cexRes.t1 = cexRes.t2 ∧
      cexRes.t1 = fcex cexRes.l1) :=
  search_result_exact_or_adjacent fcex 995 100 10 cexRes 3 cex_search_eval

/-- Claim C1 counterexample: on the strictly increasing table `fcex`, with the
target 995 inside the table's value range, the search terminates through the
lower-adjacent exit reporting the pair (90, 91), yet 995 < fcex 90: the
returned adjacent pair does not bracket the target. -/
theorem search_adjacent_bracket_misses_target :
    StrictMono fcex ∧
    fcex 0 < 995 ∧ 995 < fcex 200 ∧
    search fcex 995 100 10 = some (cexRes, 3) ∧
    cexRes.tag = Tag.low ∧ cexRes.l2 = cexRes.l1 + 1 ∧
    995 < fcex cexRes.l1 :=
  ⟨fcex_mono, by decide, by decide, cex_search_eval, rfl, by decide, by decide⟩

/-- Claim C2 (amended): the loop need not terminate — on some strictly
increasing tables the state recurs and the loop runs forever (see the
counterexample).  What does hold of a forced-adjacent-probe state (bracket
already `l2 = l1 + 1`): the next classification either hits exactly or exits
the loop, or else leaves the bracket through one of the two extrapolation
branches. -/
theorem step_at_adjacent_bracket (f : ℤ → ℤ) (target : ℤ) (σ : St)
    (hadj : σ.l2 = σ.l1 + 1) :
    (∃ r, step f target σ = Sum.inl r) ∨
    (∃ σ', step f target σ = Sum.inr σ' ∧ (σ'.nl < σ.l1 ∨ σ.l2 < σ'.nl)) := by
  cases hs : step f target σ with
  | inl r => exact Or.inl ⟨r, rfl⟩
  | inr σ' =>
    refine Or.inr ⟨σ', rfl, ?_⟩
    simp only [step, fetchInto_l1, fetchInto_l2] at hs
    split_ifs at hs with hv h1 h2 h3 h4 h5 h6 h7
    · rw [Sum.inr.injEq] at hs; subst hs; exact Or.inl h1
    · rw [Sum.inr.injEq] at hs; subst hs; exact Or.inr h2
    · exact absurd (by omega : σ.l2 - σ.l1 = 1) h4
    · exact absurd (by omega : σ.l1 = σ.l2 - 1) h6
    · exfalso; omega
    · exfalso; omega

/-- Claim C2 witness: the amended theorem applied to a width-one state on the
identity table; the classification extrapolates above the bracket. -/
theorem step_at_adjacent_bracket_witness :
    (∃ r, step (fun x : ℤ => x) 3 ⟨0, 0, 1, 5, 1, Side.high⟩ = Sum.inl r) ∨
    (∃ σ', step (fun x : ℤ => x) 3 ⟨0, 0, 1, 5, 1, Side.high⟩ = Sum.inr σ' ∧
      (σ'.nl < (⟨0, 0, 1, 5, 1, Side.high⟩ : St).l1 ∨
        (⟨0, 0, 1, 5, 1, Side.high⟩ : St).l2 < σ'.nl)) :=
  step_at_adjacent_bracket (fun x : ℤ => x) 3 ⟨0, 0, 1, 5, 1, Side.high⟩ (by decide)

/-- Claim C2 counterexample: on the strictly increasing table `fcyc`, searching
for 422 from seed 100 never terminates — for every fuel bound the loop is still
running (the state `cycSt` recurs every five iterations). -/
theorem search_cycles_forever :
    StrictMono fcyc ∧ ∀ fuel : ℕ, search fcyc 422 100 fuel = none := by
  refine ⟨fcyc_mono, fun fuel => ?_⟩
  have hne : fcyc 100 ≠ 422 := by decide
  rw [search, if_neg hne]
  by_cases h2 : fuel ≤ 2
  · exact loop_none_of_le fcyc 422 fuel 2 (init fcyc 100) cycSt 1 stepsTo_prefix h2
  · have hf : fuel = 2 + (fuel - 2) := by omega
    rw [hf, loop_add fcyc 422 2 (fuel - 2) (init fcyc 100) cycSt 1 stepsTo_prefix]
    exact loop_cyc_none (fuel - 2) (fuel - 2) (1 + 2) (by omega)

/-- Claim C3: the claim demands that a failed lookup surface a distinguishable
terminal error; the code instead coerces failure to the defaults 0 and (0, 0)
(src/ledger.cpp:144, 153) and the search happily consumes them — with an
all-failing lookup and target 0 the search even reports an "exact" seed hit at
timestamp 0. -/
theorem lookup_failure_yields_default_zero :
    get_close_time (fun _ => none) 57 = 0 ∧
    get_close_time (fun i => if i = 57 then none else some (2 * i)) 57 = 0 ∧
    get_last_validated_close_time none = (0, 0) ∧
    search (fun i => get_close_time (fun _ => none) i) 0 100 1 =
      some (⟨100, 0, 100, 0, Tag.seedExact⟩, 1) := by
  refine ⟨rfl, ?_, rfl, ?_⟩
  · norm_num [get_close_time]
  · simp [search, get_close_time]

/-- Claim C4 (amended): the bracket width never increases except in the two
extrapolation branches: whenever the interpolation guess lies inside the
current bracket, the bracket width after the classification is at most the
width before it.  (Extrapolation branches can grow the bracket — see the
counterexample.) -/
theorem bracket_width_nonincreasing_inside (f : ℤ → ℤ) (target : ℤ) (σ σ' : St)
    (hlt : σ.l1 < σ.l2)
    (hlo : σ.l1 ≤ guess target (fetchInto σ (f σ.nl)))
    (hhi : guess target (fetchInto σ (f σ.nl)) ≤ σ.l2)
    (h : step f target σ = Sum.inr σ') :
    σ'.l2 - σ'.l1 ≤ σ.l2 - σ.l1 := by
  simp only [step, fetchInto_l1, fetchInto_l2] at h
  split_ifs at h with hv h1 h2 h3 h4 h5 h6 h7
  · exfalso; omega
  · exfalso; omega
  · rw [Sum.inr.injEq] at h; subst h; dsimp only; omega
  · rw [Sum.inr.injEq] at h; subst h; dsimp only; omega
  · rw [Sum.inr.injEq] at h; subst h; dsimp only; omega
  · rw [Sum.inr.injEq] at h; subst h; dsimp only; omega

/-- Claim C4 witness: the amended theorem applied to an interior guess on the
identity table: the width shrinks from 10 to 5. -/
theorem bracket_width_nonincreasing_inside_witness :
    stOut.l2 - stOut.l1 ≤ stIn.l2 - stIn.l1 :=
  bracket_width_nonincreasing_inside (fun x : ℤ => x) 5 stIn stOut (by decide)
    (by rw [id_interior_guess]; decide) (by rw [id_interior_guess]; decide) id_interior_step

/-- Claim C4 counterexample: on the strictly increasing table `fwide`
(slope 100) with target 50, the very first loop iteration takes the
extrapolate-below branch and the bracket width grows from 10 to 89. -/
theorem extrapolation_grows_bracket :
    StrictMono fwide ∧
    step fwide 50 (init fwide 100) = Sum.inr ⟨1, 9000, 90, 9000, 1, Side.low⟩ ∧
    (init fwide 100).l2 - (init fwide 100).l1 = 10 ∧
    (⟨1, 9000, 90, 9000, 1, Side.low⟩ : St).l2 - (⟨1, 9000, 90, 9000, 1, Side.low⟩ : St).l1 = 89 ∧
    ¬((89 : ℤ) ≤ 10) :=
  ⟨fwide_mono, wide_step, by norm_num [init], rfl, by norm_num⟩

/-- Claim C5: on a strictly increasing table, every state the loop reaches
from the seeded state has, after its fetch, `t1 < t2` — the divisor `t2 - t1`
of the interpolation slope is strictly positive, hence nonzero, and no
division by zero occurs. -/
theorem interpolation_divisor_positive (f : ℤ → ℤ) (target L : ℤ)
    (hf : StrictMono f) (n : ℕ) (σ : St)
    (h : stepsTo f target n (init f L) = some σ) :
    (fetchInto σ (f σ.nl)).t1 < (fetchInto σ (f σ.nl)).t2 ∧
    (((fetchInto σ (f σ.nl)).t2 - (fetchInto σ (f σ.nl)).t1 : ℤ) : ℚ) ≠ 0 := by
  have hI : Inv f σ := stepsTo_inv f target n (init f L) σ (inv_init f L) h
  have h1 : (fetchInto σ (f σ.nl)).t1 = f σ.l1 := fetch_t1 f hI
  have h2 : (fetchInto σ (f σ.nl)).t2 = f σ.l2 := fetch_t2 f hI
  have hlt : f σ.l1 < f σ.l2 := hf hI.1
  constructor
  · rw [h1, h2]; exact hlt
  · rw [h1, h2]
    have hne : (f σ.l2 - f σ.l1 : ℤ) ≠ 0 := by omega
    exact_mod_cast hne

/-- Claim C5 witness: the theorem applied to the identity table at the seeded
state itself. -/
theorem interpolation_divisor_positive_witness :
    (fetchInto (init (fun x : ℤ => x) 5) ((fun x : ℤ => x) (init (fun x : ℤ => x) 5).nl)).t1 <
      (fetchInto (init (fun x : ℤ => x) 5) ((fun x : ℤ => x) (init (fun x : ℤ => x) 5).nl)).t2 ∧
    (((fetchInto (init (fun x : ℤ => x) 5) ((fun x : ℤ => x) (init (fun x : ℤ => x) 5).nl)).t2 -
        (fetchInto (init (fun x : ℤ => x) 5) ((fun x : ℤ => x) (init (fun x : ℤ => x) 5).nl)).t1 :
        ℤ) : ℚ) ≠ 0 :=
  interpolation_divisor_positive (fun x : ℤ => x) 0 5 (fun _ _ hab => hab) 0
    (init (fun x : ℤ => x) 5) rfl

/-- Claim C6: at every continuing iteration the guessed index is
`round(m * target + b)` with `m = (l2 - l1)/(t2 - t1)` and `b = l1 - m * t1`
computed from the post-fetch state (inverse-linear interpolation); the probe
of the next iteration is that guess, except in the two forced-adjacent-probe
cases, which arise exactly when the guess hits a bound, and probe `l1 + 1`
(resp. `l2 - 1`) instead. -/
theorem guess_is_linear_interpolation (f : ℤ → ℤ) (target : ℤ) (σ σ' : St)
    (h : step f target σ = Sum.inr σ') :
    σ'.nl = rnd ((((fetchInto σ (f σ.nl)).l2 : ℚ) - ((fetchInto σ (f σ.nl)).l1 : ℚ)) /
          (((fetchInto σ (f σ.nl)).t2 : ℚ) - ((fetchInto σ (f σ.nl)).t1 : ℚ)) * (target : ℚ) +
        (((fetchInto σ (f σ.nl)).l1 : ℚ) -
          (((fetchInto σ (f σ.nl)).l2 : ℚ) - ((fetchInto σ (f σ.nl)).l1 : ℚ)) /
            (((fetchInto σ (f σ.nl)).t2 : ℚ) - ((fetchInto σ (f σ.nl)).t1 : ℚ)) *
            ((fetchInto σ (f σ.nl)).t1 : ℚ))) ∨
    (guess target (fetchInto σ (f σ.nl)) = (fetchInto σ (f σ.nl)).l1 ∧
      σ'.nl = (fetchInto σ (f σ.nl)).l1 + 1) ∨
    (guess target (fetchInto σ (f σ.nl)) = (fetchInto σ (f σ.nl)).l2 ∧
      σ'.nl = (fetchInto σ (f σ.nl)).l2 - 1) := by
  simp only [step] at h
  split_ifs at h with hv h1 h2 h3 h4 h5 h6 h7 <;>
    rw [Sum.inr.injEq] at h <;> subst h
  · exact Or.inl (guess_eq_formula target (fetchInto σ (f σ.nl)))
  · exact Or.inl (guess_eq_formula target (fetchInto σ (f σ.nl)))
  · exact Or.inr (Or.inl ⟨h3, rfl⟩)
  · exact Or.inr (Or.inr ⟨h5, rfl⟩)
  · exact Or.inl (guess_eq_formula target (fetchInto σ (f σ.nl)))
  · exact Or.inl (guess_eq_formula target (fetchInto σ (f σ.nl)))

/-- Claim C6 witness: the theorem applied to an interior guess on the identity
table. -/
theorem guess_is_linear_interpolation_witness :
    stOut.nl = rnd ((((fetchInto stIn ((fun x : ℤ => x) stIn.nl)).l2 : ℚ) -
          ((fetchInto stIn ((fun x : ℤ => x) stIn.nl)).l1 : ℚ)) /
          (((fetchInto stIn ((fun x : ℤ => x) stIn.nl)).t2 : ℚ) -
            ((fetchInto stIn ((fun x : ℤ => x) stIn.nl)).t1 : ℚ)) * ((5 : ℤ) : ℚ) +
        (((fetchInto stIn ((fun x : ℤ => x) stIn.nl)).l1 : ℚ) -
          (((fetchInto stIn ((fun x : ℤ => x) stIn.nl)).l2 : ℚ) -
            ((fetchInto stIn ((fun x : ℤ => x) stIn.nl)).l1 : ℚ)) /
            (((fetchInto stIn ((fun x : ℤ => x) stIn.nl)).t2 : ℚ) -
              ((fetchInto stIn ((fun x : ℤ => x) stIn.nl)).t1 : ℚ)) *
            ((fetchInto stIn ((fun x : ℤ => x) stIn.nl)).t1 : ℚ))) ∨
    (guess 5 (fetchInto stIn ((fun x : ℤ => x) stIn.nl)) =
        (fetchInto stIn ((fun x : ℤ => x) stIn.nl)).l1 ∧
      stOut.nl = (fetchInto stIn ((fun x : ℤ => x) stIn.nl)).l1 + 1) ∨
    (guess 5 (fetchInto stIn ((fun x : ℤ => x) stIn.nl)) =
        (fetchInto stIn ((fun x : ℤ => x) stIn.nl)).l2 ∧
      stOut.nl = (fetchInto stIn ((fun x : ℤ => x) stIn.nl)).l2 - 1) :=
  guess_is_linear_interpolation (fun x : ℤ => x) 5 stIn stOut id_interior_step

/-- Claim C7: whenever a fetched close time equals the target exactly, the
search stops at once with that index — at the seed this is the early return
with exactly one lookup in total, and inside the loop the iteration that
fetched the matching timestamp breaks immediately, performing no further
lookup. -/
theorem exact_hit_short_circuit (f : ℤ → ℤ) (target L : ℤ) (fuel : ℕ) (σ : St) :
    (f L = target → search f target L fuel = some (⟨L, f L, L, f L, Tag.seedExact⟩, 1)) ∧
    (f σ.nl = target →
      step f target σ =
        Sum.inl ⟨σ.nl, f σ.nl, (fetchInto σ (f σ.nl)).l2, (fetchInto σ (f σ.nl)).t2,
          Tag.exact⟩) := by
  constructor
  · intro hL
    rw [search, if_pos hL]
  · intro hnl
    simp only [step]
    rw [if_pos hnl]

/-- Claim C7 witness: the theorem applied to a constant table whose value is
the target. -/
theorem exact_hit_short_circuit_witness :
    search (fun _ : ℤ => (7 : ℤ)) 7 3 2 = some (⟨3, 7, 3, 7, Tag.seedExact⟩, 1) ∧
    step (fun _ : ℤ => (7 : ℤ)) 7 ⟨0, 0, 9, 9, 4, Side.low⟩ =
      Sum.inl ⟨4, 7, (fetchInto ⟨0, 0, 9, 9, 4, Side.low⟩ 7).l2,
        (fetchInto ⟨0, 0, 9, 9, 4, Side.low⟩ 7).t2, Tag.exact⟩ :=
  ⟨(exact_hit_short_circuit (fun _ : ℤ => (7 : ℤ)) 7 3 2 ⟨0, 0, 9, 9, 4, Side.low⟩).1 rfl,
    (exact_hit_short_circuit (fun _ : ℤ => (7 : ℤ)) 7 3 2 ⟨0, 0, 9, 9, 4, Side.low⟩).2 rfl⟩

/-- Claim C8 (amended): when the guess `nl` lies strictly inside the bracket,
the bound numerically FARTHER from `nl` is replaced by `nl` (keeping the
tighter side), with ties broken in favor of replacing the upper bound: if
`nl - l1 ≤ l2 - nl` then `l2` is replaced, otherwise `l1`; the guess's close
time is then fetched into the replaced bound's slot at the next iteration. -/
theorem interior_guess_replaces_farther_bound (f : ℤ → ℤ) (target : ℤ) (σ σ' : St)
    (h : step f target σ = Sum.inr σ')
    (hin1 : σ.l1 < guess target (fetchInto σ (f σ.nl)))
    (hin2 : guess target (fetchInto σ (f σ.nl)) < σ.l2) :
    (guess target (fetchInto σ (f σ.nl)) - σ.l1 ≤
        σ.l2 - guess target (fetchInto σ (f σ.nl)) →
      σ'.l1 = σ.l1 ∧ σ'.l2 = guess target (fetchInto σ (f σ.nl)) ∧
      σ'.side = Side.high ∧ σ'.nl = σ'.l2) ∧
    (σ.l2 - guess target (fetchInto σ (f σ.nl)) <
        guess target (fetchInto σ (f σ.nl)) - σ.l1 →
      σ'.l1 = guess target (fetchInto σ (f σ.nl)) ∧ σ'.l2 = σ.l2 ∧
      σ'.side = Side.low ∧ σ'.nl = σ'.l1) := by
  simp only [step, fetchInto_l1, fetchInto_l2] at h
  split_ifs at h with hv h1 h2 h3 h4 h5 h6 h7
  · exfalso; omega
  · exfalso; omega
  · exfalso; omega
  · exfalso; omega
  · rw [Sum.inr.injEq] at h; subst h
    exact ⟨fun _ => ⟨rfl, rfl, rfl, rfl⟩, fun hcon => by exfalso; omega⟩
  · rw [Sum.inr.injEq] at h; subst h
    exact ⟨fun hcon => by exfalso; omega, fun _ => ⟨rfl, rfl, rfl, rfl⟩⟩

/-- Claim C8 witness: the amended theorem applied to the interior guess 2 in
the bracket (0, 10) on the identity table. -/
theorem interior_guess_replaces_farther_bound_witness :
    (guess 2 (fetchInto stIn ((fun x : ℤ => x) stIn.nl)) - stIn.l1 ≤
        stIn.l2 - guess 2 (fetchInto stIn ((fun x : ℤ => x) stIn.nl)) →
      st8Out.l1 = stIn.l1 ∧ st8Out.l2 = guess 2 (fetchInto stIn ((fun x : ℤ => x) stIn.nl)) ∧
      st8Out.side = Side.high ∧ st8Out.nl = st8Out.l2) ∧
    (stIn.l2 - guess 2 (fetchInto stIn ((fun x : ℤ => x) stIn.nl)) <
        guess 2 (fetchInto stIn ((fun x : ℤ => x) stIn.nl)) - stIn.l1 →
      st8Out.l1 = guess 2 (fetchInto stIn ((fun x : ℤ => x) stIn.nl)) ∧ st8Out.l2 = stIn.l2 ∧
      st8Out.side = Side.low ∧ st8Out.nl = st8Out.l1) :=
  interior_guess_replaces_farther_bound (fun x : ℤ => x) 2 stIn st8Out id8_interior_step
    (by rw [id8_interior_guess]; decide) (by rw [id8_interior_guess]; decide)

/-- Claim C8 counterexample: in the state `stIn` (bracket (0, 10)) with target
2 on the identity table, the guess 2 is strictly closer to the lower bound
(2 - 0 < 10 - 2), yet the code keeps the lower bound and overwrites the UPPER
bound with the guess — the bound closer to `nl` is not the one replaced. -/
theorem closer_bound_not_replaced :
    step (fun x : ℤ => x) 2 stIn = Sum.inr st8Out ∧
    guess 2 (fetchInto stIn ((fun x : ℤ => x) stIn.nl)) - stIn.l1 <
      stIn.l2 - guess 2 (fetchInto stIn ((fun x : ℤ => x) stIn.nl)) ∧
    st8Out.l1 = stIn.l1 ∧
    st8Out.l2 = guess 2 (fetchInto stIn ((fun x : ℤ => x) stIn.nl)) :=
  ⟨id8_interior_step, by rw [id8_interior_guess]; decide, rfl,
    by rw [id8_interior_guess]; rfl⟩

/-- Claim C9 (spec-modelled): if the seeded bounds arrive out of order
(`l1 > l2`), both the bound pair and the timestamp pair are swapped before the
first classification, and the search from the out-of-order seeds returns
exactly what the search from the pre-sorted seeds returns. -/
theorem seed_swap_normalization (f : ℤ → ℤ) (target : ℤ) (fuel : ℕ) (p q : ℤ × ℤ)
    (hpq : q.1 < p.1) :
    normalizeSeeds p q = (q, p) ∧
    searchFromSeeds f target fuel p q = searchFromSeeds f target fuel q p := by
  have h1 : normalizeSeeds p q = (q, p) := by
    rw [normalizeSeeds, if_pos hpq]
  have h2 : normalizeSeeds q p = (q, p) := by
    rw [normalizeSeeds, if_neg (by omega)]
  exact ⟨h1, by simp only [searchFromSeeds, h1, h2]⟩

/-- Claim C9 witness: the theorem applied to the out-of-order seed pairs
(5, 50) and (3, 30). -/
theorem seed_swap_normalization_witness :
    normalizeSeeds (5, 50) (3, 30) = ((3, 30), (5, 50)) ∧
    searchFromSeeds (fun x : ℤ => x) 0 3 (5, 50) (3, 30) =
      searchFromSeeds (fun x : ℤ => x) 0 3 (3, 30) (5, 50) :=
  seed_swap_normalization (fun x : ℤ => x) 0 3 (5, 50) (3, 30) (by norm_num)

/-- Claim C10: every termination path copies the answer into the `(l1, t1)`
slots before exiting, so the record reported after the loop always holds the
result index and that index's own close time: the final `t1` is the table's
value at the final `l1`; on the exact paths `t1` is the target, and the
upper-adjacent exit has copied `(l2, t2)` into `(l1, t1)`. -/
theorem final_record_holds_result (f : ℤ → ℤ) (target L : ℤ) (fuel : ℕ)
    (r : Res) (n : ℕ) (h : search f target L fuel = some (r, n)) :
    r.t1 = f r.l1 ∧
    (r.tag = Tag.seedExact ∨ r.tag = Tag.exact → r.t1 = target) ∧
    (r.tag = Tag.high → r.l1 = r.l2 ∧ r.t1 = r.t2) := by
  rw [search] at h
  split_ifs at h with hseed
  · simp only [Option.some.injEq, Prod.mk.injEq] at h
    obtain ⟨h1, -⟩ := h
    subst h1
    refine ⟨rfl, fun _ => hseed, fun ht => ?_⟩
    exact Tag.noConfusion ht
  · obtain ⟨σ', hI, hstep⟩ := loop_inl f target fuel (init f L) 1 n r (inv_init f L) h
    rcases step_inl f target hI hstep with ⟨ht, h1, h2⟩ | ⟨ht, h1, h2, h3⟩ | ⟨ht, h1, h2, h3⟩
    · refine ⟨h2, fun _ => h1, fun hh => ?_⟩
      rw [ht] at hh; exact absurd hh (by decide)
    · refine ⟨h2, fun hh => ?_, fun hh => ?_⟩ <;> rw [ht] at hh
      · rcases hh with hh | hh <;> exact absurd hh (by decide)
      · exact absurd hh (by decide)
    · refine ⟨h3, fun hh => ?_, fun _ => ⟨h1, h2⟩⟩
      rw [ht] at hh
      rcases hh with hh | hh <;> exact absurd hh (by decide)

/-- Claim C10 witness: the theorem applied to an exact seed hit on the
identity table. -/
theorem final_record_holds_result_witness :
    (⟨5, 5, 5, 5, Tag.seedExact⟩ : Res).t1 =
      (fun x : ℤ => x) (⟨5, 5, 5, 5, Tag.seedExact⟩ : Res).l1 ∧
    ((⟨5, 5, 5, 5, Tag.seedExact⟩ : Res).tag = Tag.seedExact ∨
        (⟨5, 5, 5, 5, Tag.seedExact⟩ : Res).tag = Tag.exact →
      (⟨5, 5, 5, 5, Tag.seedExact⟩ : Res).t1 = 5) ∧
    ((⟨5, 5, 5, 5, Tag.seedExact⟩ : Res).tag = Tag.high →
      (⟨5, 5, 5, 5, Tag.seedExact⟩ : Res).l1 = (⟨5, 5, 5, 5, Tag.seedExact⟩ : Res).l2 ∧
      (⟨5, 5, 5, 5, Tag.seedExact⟩ : Res).t1 = (⟨5, 5, 5, 5, Tag.seedExact⟩ : Res).t2) :=
  final_record_holds_result (fun x : ℤ => x) 5 5 1 ⟨5, 5, 5, 5, Tag.seedExact⟩ 1 id_search_eval

end GetLedger
